import Mathlib

/-!
# Verification of the GalSim interpolated-image core (python-binding module)

The repository exposes, through `src/pysrc/SBInterpolatedImage.cpp`, the
interpolated-profile engine of GalSim: the flux-containment solver
`CalculateSizeContainingFlux`, the `SBInterpolatedImage` and
`SBInterpolatedKImage` constructors, and the `calculateMaxK` refinement.
Only the binding glue is present in the repository sources, so the bodies of
these operations are modelled here from the specification (each such
definition carries a doc comment starting with `Modelled from the spec:`).

Conventions of the embedding:
* pixel sample values and all derived scalars are exact rationals (`ℚ`);
* a pixel grid is a list of pixels, each an integer coordinate pair with a
  rational flux value; coordinates not listed are implicitly zero flux;
* radii are represented by their *squares* (squared distance from the
  centroid), which keeps every quantity rational; since `x ↦ x²` is a
  strictly monotone bijection on nonnegative reals, every ordering or
  minimality statement about radii is faithfully represented by the same
  statement about squared radii;
* frequencies (`stepK`, `maxK`) are rationals; where the physical formula
  carries a constant factor of `2π` we drop it (stated in the relevant doc
  comment), which leaves every ordering and ratio claim intact.
-/

namespace GalSim

/-- A single pixel of a real-valued image: integer grid coordinates and a
rational sample value (flux). -/
structure Pixel where
  x : Int
  y : Int
  flux : ℚ
  deriving Repr, DecidableEq

/-- A single sample of a complex-valued Fourier image (`BaseImage<complex<double>>`
in the binding): integer grid coordinates and rational real/imaginary parts. -/
structure KPixel where
  x : Int
  y : Int
  re : ℚ
  im : ℚ
  deriving Repr, DecidableEq

/-- Integer bounding box, as `Bounds<int>` in the binding. -/
structure Bounds where
  xmin : Int
  xmax : Int
  ymin : Int
  ymax : Int
  deriving Repr, DecidableEq

/-- `Bounds.includes outer inner` : the rectangle `inner` lies within `outer`. -/
def Bounds.includes (outer inner : Bounds) : Bool :=
  decide (outer.xmin ≤ inner.xmin) && decide (inner.xmax ≤ outer.xmax) &&
  decide (outer.ymin ≤ inner.ymin) && decide (inner.ymax ≤ outer.ymax)

/-- The accuracy configuration (`GSParams` in the binding): the tolerances the
spec names for the two derivations modelled here.  Immutable by construction. -/
structure GSParams where
  folding_threshold : ℚ
  maxk_threshold : ℚ
  deriving Repr, DecidableEq

/-- Total flux of a grid: the sum of all sample values. -/
def totalFlux (ps : List Pixel) : ℚ :=
  (ps.map Pixel.flux).sum

/-- x-coordinate of the flux-weighted centroid (rational division; total
division by zero yields 0, but the solver only uses it when total flux is
positive). -/
def centroidX (ps : List Pixel) : ℚ :=
  (ps.map (fun p => p.flux * (p.x : ℚ))).sum / totalFlux ps

/-- y-coordinate of the flux-weighted centroid. -/
def centroidY (ps : List Pixel) : ℚ :=
  (ps.map (fun p => p.flux * (p.y : ℚ))).sum / totalFlux ps

/-- Squared distance of a pixel from the point `(cx, cy)`. -/
def dist2 (cx cy : ℚ) (p : Pixel) : ℚ :=
  ((p.x : ℚ) - cx) ^ 2 + ((p.y : ℚ) - cy) ^ 2

/-- The candidate (squared) radii of a grid: the squared distance of each
pixel from the flux-weighted centroid.  These are the abscissae of the
radially binned cumulative histogram, in the limit of one bin per pixel
distance. -/
def radii (ps : List Pixel) : List ℚ :=
  ps.map (dist2 (centroidX ps) (centroidY ps))

/-- Flux enclosed by the disk of squared radius `r2` centered at the
flux-weighted centroid: the sum of the sample values of the pixels whose
squared distance from the centroid is at most `r2`. -/
def enclosedFlux (ps : List Pixel) (r2 : ℚ) : ℚ :=
  ((ps.filter (fun p => dist2 (centroidX ps) (centroidY ps) p ≤ r2)).map Pixel.flux).sum

/-- Minimum of a list of rationals, `none` on the empty list. -/
def listMin : List ℚ → Option ℚ
  | [] => none
  | a :: l =>
    match listMin l with
    | none => some a
    | some b => some (min a b)

/-- Maximum of a list of rationals, `none` on the empty list. -/
def listMax : List ℚ → Option ℚ
  | [] => none
  | a :: l =>
    match listMax l with
    | none => some a
    | some b => some (max a b)

/-- Modelled from the spec: `CalculateSizeContainingFlux` (declared in
`SBInterpolatedImage.h`, bound at `src/pysrc/SBInterpolatedImage.cpp:43-45`;
the implementation is not among the repository sources).  Given a pixel grid
and a target flux fraction `f`, it computes the total flux, builds the
cumulative radial flux curve at the pixels' own distances from the
flux-weighted centroid, and returns the first (squared) radius at which the
cumulative flux reaches `f` times the total flux; if no radius reaches the
target the largest available radius is returned, and if the total flux is
zero or negative the result is defined to be `0`. -/
def CalculateSizeContainingFlux (ps : List Pixel) (f : ℚ) : ℚ :=
  let tot := totalFlux ps
  if tot ≤ 0 then 0
  else
    match listMin ((radii ps).filter (fun r2 => f * tot ≤ enclosedFlux ps r2)) with
    | some r2 => r2
    | none => (listMax (radii ps)).getD 0

/-! ### Helper lemmas about `listMin` / `listMax` -/

theorem listMin_isSome {l : List ℚ} (h : l ≠ []) : ∃ a, listMin l = some a := by
  cases l with
  | nil => exact absurd rfl h
  | cons x l =>
    simp only [listMin]
    cases listMin l with
    | none => exact ⟨x, rfl⟩
    | some b => exact ⟨min x b, rfl⟩

theorem listMin_mem : ∀ {l : List ℚ} {a : ℚ}, listMin l = some a → a ∈ l := by
  intro l
  induction l with
  | nil => intro a h; simp [listMin] at h
  | cons x l ih =>
    intro a h
    simp only [listMin] at h
    cases hl : listMin l with
    | none =>
      rw [hl] at h
      simp only [Option.some.injEq] at h
      subst h
      exact List.mem_cons_self _ _
    | some b =>
      rw [hl] at h
      simp only [Option.some.injEq] at h
      subst h
      rcases min_choice x b with hc | hc
      · rw [hc]; exact List.mem_cons_self _ _
      · rw [hc]; exact List.mem_cons_of_mem _ (ih hl)

theorem listMin_le : ∀ {l : List ℚ} {a : ℚ}, listMin l = some a → ∀ x ∈ l, a ≤ x := by
  intro l
  induction l with
  | nil => intro a h; simp [listMin] at h
  | cons y l ih =>
    intro a h x hx
    simp only [listMin] at h
    cases hl : listMin l with
    | none =>
      rw [hl] at h
      simp only [Option.some.injEq] at h
      subst h
      rcases List.mem_cons.mp hx with rfl | hx'
      · exact le_refl _
      · rcases listMin_isSome (List.ne_nil_of_mem hx') with ⟨c, hc⟩
        rw [hc] at hl
        simp at hl
    | some b =>
      rw [hl] at h
      simp only [Option.some.injEq] at h
      subst h
      rcases List.mem_cons.mp hx with rfl | hx'
      · exact min_le_left _ _
      · exact le_trans (min_le_right _ _) (ih hl x hx')

theorem listMax_isSome {l : List ℚ} (h : l ≠ []) : ∃ a, listMax l = some a := by
  cases l with
  | nil => exact absurd rfl h
  | cons x l =>
    simp only [listMax]
    cases listMax l with
    | none => exact ⟨x, rfl⟩
    | some b => exact ⟨max x b, rfl⟩

theorem listMax_mem : ∀ {l : List ℚ} {a : ℚ}, listMax l = some a → a ∈ l := by
  intro l
  induction l with
  | nil => intro a h; simp [listMax] at h
  | cons x l ih =>
    intro a h
    simp only [listMax] at h
    cases hl : listMax l with
    | none =>
      rw [hl] at h
      simp only [Option.some.injEq] at h
      subst h
      exact List.mem_cons_self _ _
    | some b =>
      rw [hl] at h
      simp only [Option.some.injEq] at h
      subst h
      rcases max_choice x b with hc | hc
      · rw [hc]; exact List.mem_cons_self _ _
      · rw [hc]; exact List.mem_cons_of_mem _ (ih hl)

theorem le_listMax : ∀ {l : List ℚ} {a : ℚ}, listMax l = some a → ∀ x ∈ l, x ≤ a := by
  intro l
  induction l with
  | nil => intro a h; simp [listMax] at h
  | cons y l ih =>
    intro a h x hx
    simp only [listMax] at h
    cases hl : listMax l with
    | none =>
      rw [hl] at h
      simp only [Option.some.injEq] at h
      subst h
      rcases List.mem_cons.mp hx with rfl | hx'
      · exact le_refl _
      · rcases listMax_isSome (List.ne_nil_of_mem hx') with ⟨c, hc⟩
        rw [hc] at hl
        simp at hl
    | some b =>
      rw [hl] at h
      simp only [Option.some.injEq] at h
      subst h
      rcases List.mem_cons.mp hx with rfl | hx'
      · exact le_max_left _ _
      · exact le_trans (ih hl x hx') (le_max_right _ _)

theorem listMax_eq_of_mem_of_forall_le {l : List ℚ} {a : ℚ} (ha : a ∈ l)
    (hle : ∀ x ∈ l, x ≤ a) : listMax l = some a := by
  rcases listMax_isSome (l := l) (by intro h; subst h; simp at ha) with ⟨b, hb⟩
  have h1 : b ≤ a := hle b (listMax_mem hb)
  have h2 : a ≤ b := le_listMax hb a ha
  rw [hb, le_antisymm h1 h2]

/-! ### Structural lemmas about the cumulative radial flux curve -/

theorem totalFlux_pos_ne_nil {ps : List Pixel} (h : 0 < totalFlux ps) : ps ≠ [] := by
  intro hnil
  subst hnil
  simp [totalFlux] at h

theorem radii_ne_nil {ps : List Pixel} (h : ps ≠ []) : radii ps ≠ [] := by
  intro hr
  exact h (List.map_eq_nil_iff.mp hr)

/-- If no candidate radius lies below `r2`, the disk of squared radius `r2`
contains no pixel at all and the enclosed flux is zero. -/
theorem enclosedFlux_eq_zero_of_no_radius {ps : List Pixel} {r2 : ℚ}
    (h : (radii ps).filter (fun d => d ≤ r2) = []) : enclosedFlux ps r2 = 0 := by
  unfold enclosedFlux
  have hemp : ps.filter (fun p => dist2 (centroidX ps) (centroidY ps) p ≤ r2) = [] := by
    rw [List.filter_eq_nil_iff]
    intro p hp
    simp only [decide_eq_true_eq]
    intro hle
    have hmem : dist2 (centroidX ps) (centroidY ps) p ∈
        (radii ps).filter (fun d => d ≤ r2) := by
      rw [List.mem_filter]
      exact ⟨List.mem_map_of_mem _ hp, by simpa using hle⟩
    rw [h] at hmem
    simp at hmem
  rw [hemp]
  simp

/-- The enclosed flux at squared radius `r2` equals the enclosed flux at the
largest candidate radius not exceeding `r2`: the cumulative curve is a step
function jumping only at candidate radii. -/
theorem enclosedFlux_eq_at_max_radius {ps : List Pixel} {r2 d : ℚ}
    (h : listMax ((radii ps).filter (fun x => x ≤ r2)) = some d) :
    enclosedFlux ps r2 = enclosedFlux ps d := by
  have hd_mem := listMax_mem h
  rw [List.mem_filter] at hd_mem
  have hd_le : d ≤ r2 := by simpa using hd_mem.2
  unfold enclosedFlux
  congr 1
  congr 1
  apply List.filter_congr
  intro p hp
  simp only [decide_eq_decide]
  constructor
  · intro hle
    have hmem : dist2 (centroidX ps) (centroidY ps) p ∈
        (radii ps).filter (fun x => x ≤ r2) := by
      rw [List.mem_filter]
      exact ⟨List.mem_map_of_mem _ hp, by simpa using hle⟩
    exact le_listMax h _ hmem
  · intro hle
    exact le_trans hle hd_le

/-! ### C1, C5, C6: the flux-containment solver -/

/-- **C1.** For every pixel grid with positive total flux and every target
fraction `f ∈ (0, 1]`, the solver returns the smallest (squared) radius whose
centered disk encloses at least `f` times the total flux, when such a radius
exists; and when `f` exceeds the maximum achievable cumulative fraction, it
returns the largest available candidate radius. -/
theorem calculateSizeContainingFlux_correct (ps : List Pixel) (f : ℚ)
    (htot : 0 < totalFlux ps) (hf0 : 0 < f) (_hf1 : f ≤ 1) :
    ((∃ r0 ∈ radii ps, f * totalFlux ps ≤ enclosedFlux ps r0) →
      (f * totalFlux ps ≤ enclosedFlux ps (CalculateSizeContainingFlux ps f) ∧
       ∀ r2, f * totalFlux ps ≤ enclosedFlux ps r2 →
         CalculateSizeContainingFlux ps f ≤ r2)) ∧
    ((∀ r0 ∈ radii ps, enclosedFlux ps r0 < f * totalFlux ps) →
      (CalculateSizeContainingFlux ps f ∈ radii ps ∧
       ∀ r0 ∈ radii ps, r0 ≤ CalculateSizeContainingFlux ps f)) := by
  have hT : 0 < f * totalFlux ps := mul_pos hf0 htot
  unfold CalculateSizeContainingFlux
  rw [if_neg (not_le.mpr htot)]
  constructor
  · rintro ⟨r0, hr0_mem, hr0⟩
    have hne : (radii ps).filter (fun r2 => f * totalFlux ps ≤ enclosedFlux ps r2) ≠ [] := by
      intro hnil
      have : r0 ∈ (radii ps).filter (fun r2 => f * totalFlux ps ≤ enclosedFlux ps r2) := by
        rw [List.mem_filter]
        exact ⟨hr0_mem, by simpa using hr0⟩
      rw [hnil] at this
      simp at this
    rcases listMin_isSome hne with ⟨m, hm⟩
    rw [hm]
    have hm_mem := listMin_mem hm
    rw [List.mem_filter] at hm_mem
    refine ⟨by simpa using hm_mem.2, ?_⟩
    intro r2 hr2
    have hSne : (radii ps).filter (fun x => x ≤ r2) ≠ [] := by
      intro hnil
      have := enclosedFlux_eq_zero_of_no_radius hnil
      rw [this] at hr2
      exact absurd hr2 (not_le.mpr hT)
    rcases listMax_isSome hSne with ⟨d, hd⟩
    have hstep := enclosedFlux_eq_at_max_radius hd
    have hd_mem := listMax_mem hd
    rw [List.mem_filter] at hd_mem
    have hd_le : d ≤ r2 := by simpa using hd_mem.2
    have hd_in_F : d ∈ (radii ps).filter
        (fun r2 => f * totalFlux ps ≤ enclosedFlux ps r2) := by
      rw [List.mem_filter]
      refine ⟨hd_mem.1, ?_⟩
      simp only [decide_eq_true_eq]
      rw [← hstep]
      exact hr2
    exact le_trans (listMin_le hm _ hd_in_F) hd_le
  · intro hall
    have hF : (radii ps).filter (fun r2 => f * totalFlux ps ≤ enclosedFlux ps r2) = [] := by
      rw [List.filter_eq_nil_iff]
      intro r0 hr0
      simp only [decide_eq_true_eq, not_le]
      exact hall r0 hr0
    rw [hF]
    simp only [listMin]
    rcases listMax_isSome (radii_ne_nil (totalFlux_pos_ne_nil htot)) with ⟨M, hM⟩
    rw [hM]
    simp only [Option.getD_some]
    exact ⟨listMax_mem hM, fun r0 hr0 => le_listMax hM _ hr0⟩

/-- Witness for C1 on a concrete grid: two unit-flux pixels at `(0,0)` and
`(1,0)`; for `f = 1/2` the half-flux radius exists. -/
theorem calculateSizeContainingFlux_correct_witness :
    (0 : ℚ) < totalFlux [⟨0, 0, 1⟩, ⟨1, 0, 1⟩] ∧
    ((1 : ℚ) / 2) * totalFlux [⟨0, 0, 1⟩, ⟨1, 0, 1⟩] ≤
      enclosedFlux [⟨0, 0, 1⟩, ⟨1, 0, 1⟩]
        (CalculateSizeContainingFlux [⟨0, 0, 1⟩, ⟨1, 0, 1⟩] (1 / 2)) := by
  refine ⟨by norm_num [totalFlux], ?_⟩
  have h := (calculateSizeContainingFlux_correct [⟨0, 0, 1⟩, ⟨1, 0, 1⟩] (1 / 2)
    (by norm_num [totalFlux]) (by norm_num) (by norm_num)).1
  refine (h ⟨1 / 4, ?_, ?_⟩).1
  · norm_num [radii, dist2, centroidX, centroidY, totalFlux]
  · norm_num [enclosedFlux, dist2, centroidX, centroidY, totalFlux, List.filter]

/-- **C5.** For every pixel grid whose total flux is zero or negative and
every requested fraction `f ∈ (0, 1]`, the solver returns radius `0` (it does
not fail: the function is total). -/
theorem calculateSizeContainingFlux_nonpos_flux (ps : List Pixel) (f : ℚ)
    (htot : totalFlux ps ≤ 0) (_hf0 : 0 < f) (_hf1 : f ≤ 1) :
    CalculateSizeContainingFlux ps f = 0 := by
  unfold CalculateSizeContainingFlux
  rw [if_pos htot]

/-- Witness for C5: a grid with a positive and a cancelling negative sample
(total flux zero), fraction `1/2`. -/
theorem calculateSizeContainingFlux_nonpos_flux_witness :
    totalFlux [⟨0, 0, 3⟩, ⟨2, 1, -3⟩] ≤ 0 ∧ (0 : ℚ) < 1 / 2 ∧ (1 : ℚ) / 2 ≤ 1 ∧
    CalculateSizeContainingFlux [⟨0, 0, 3⟩, ⟨2, 1, -3⟩] (1 / 2) = 0 :=
  ⟨by norm_num [totalFlux], by norm_num, by norm_num,
    calculateSizeContainingFlux_nonpos_flux [⟨0, 0, 3⟩, ⟨2, 1, -3⟩] (1 / 2)
      (by norm_num [totalFlux]) (by norm_num) (by norm_num)⟩

/-- **C6.** For a fixed pixel grid, the flux-containment radius is
monotonically non-decreasing in the requested fraction. -/
theorem calculateSizeContainingFlux_monotone (ps : List Pixel) (f1 f2 : ℚ)
    (_hf1 : 0 < f1) (h12 : f1 ≤ f2) (_hf2 : f2 ≤ 1) :
    CalculateSizeContainingFlux ps f1 ≤ CalculateSizeContainingFlux ps f2 := by
  unfold CalculateSizeContainingFlux
  by_cases htot : totalFlux ps ≤ 0
  · rw [if_pos htot, if_pos htot]
  · rw [if_neg htot, if_neg htot]
    have htot' : 0 < totalFlux ps := not_le.mp htot
    have hsub : ∀ x, x ∈ (radii ps).filter
          (fun r2 => f2 * totalFlux ps ≤ enclosedFlux ps r2) →
        x ∈ (radii ps).filter
          (fun r2 => f1 * totalFlux ps ≤ enclosedFlux ps r2) := by
      intro x hx
      rw [List.mem_filter] at hx ⊢
      refine ⟨hx.1, ?_⟩
      simp only [decide_eq_true_eq] at hx ⊢
      exact le_trans (mul_le_mul_of_nonneg_right h12 (le_of_lt htot')) hx.2
    cases hm2 : listMin ((radii ps).filter
        (fun r2 => f2 * totalFlux ps ≤ enclosedFlux ps r2)) with
    | some m2 =>
      have hm2_mem := listMin_mem hm2
      have hm2_in_F1 := hsub m2 hm2_mem
      have hne1 : (radii ps).filter
          (fun r2 => f1 * totalFlux ps ≤ enclosedFlux ps r2) ≠ [] := by
        intro hnil
        rw [hnil] at hm2_in_F1
        simp at hm2_in_F1
      rcases listMin_isSome hne1 with ⟨m1, hm1⟩
      rw [hm1]
      exact listMin_le hm1 _ hm2_in_F1
    | none =>
      rcases listMax_isSome (radii_ne_nil (totalFlux_pos_ne_nil htot')) with ⟨M, hM⟩
      rw [hM]
      simp only [Option.getD_some]
      cases hm1 : listMin ((radii ps).filter
          (fun r2 => f1 * totalFlux ps ≤ enclosedFlux ps r2)) with
      | some m1 =>
        have hm1_mem := listMin_mem hm1
        rw [List.mem_filter] at hm1_mem
        exact le_listMax hM _ hm1_mem.1
      | none => exact le_refl _

/-- Witness for C6 on a concrete grid and fraction pair `1/4 ≤ 3/4`. -/
theorem calculateSizeContainingFlux_monotone_witness :
    (0 : ℚ) < 1 / 4 ∧ (1 : ℚ) / 4 ≤ 3 / 4 ∧ (3 : ℚ) / 4 ≤ 1 ∧
    CalculateSizeContainingFlux [⟨0, 0, 1⟩, ⟨1, 0, 1⟩, ⟨3, 0, 2⟩] (1 / 4) ≤
      CalculateSizeContainingFlux [⟨0, 0, 1⟩, ⟨1, 0, 1⟩, ⟨3, 0, 2⟩] (3 / 4) :=
  ⟨by norm_num, by norm_num, by norm_num,
    calculateSizeContainingFlux_monotone [⟨0, 0, 1⟩, ⟨1, 0, 1⟩, ⟨3, 0, 2⟩]
      (1 / 4) (3 / 4) (by norm_num) (by norm_num) (by norm_num)⟩

/-! ### The interpolated real-space profile and the maxK refinement -/

/-- Modelled from the spec: the `InterpolatedRealProfile` state relevant to
the operations verified here — the wrapped pixel grid, the derived or
overridden Fourier sampling interval `stepK`, the current bandwidth cutoff
`maxK`, and the accuracy configuration.  (The profile also holds its two
interpolants; they enter the verified operations only through derived
quantities, see `SBInterpolatedImage.init`.) -/
structure InterpolatedRealProfile where
  pixels : List Pixel
  stepK : ℚ
  maxK : ℚ
  gsparams : GSParams

/-- The candidate frequencies at which the maxK refinement samples the
profile's Fourier amplitude: the positive multiples of `stepk` not exceeding
`bound` (empty when `stepk` is not positive). -/
def candidateFreqs (stepk bound : ℚ) : List ℚ :=
  if stepk ≤ 0 then []
  else (List.range (Int.toNat ⌊bound / stepk⌋)).map (fun i : ℕ => ((i : ℚ) + 1) * stepk)

/-- The effective starting bound of the maxK refinement: the profile's
current `maxK`, clipped by the caller-supplied ceiling `max_maxk` when that
ceiling is nonzero (`0` means "no ceiling", the binding's default). -/
def maxKBound (p : InterpolatedRealProfile) (max_maxk : ℚ) : ℚ :=
  if max_maxk = 0 then p.maxK else min p.maxK max_maxk

/-- Modelled from the spec: `SBInterpolatedImage::calculateMaxK` (bound at
`src/pysrc/SBInterpolatedImage.cpp:54`; the implementation is not among the
repository sources).  Starting from the current bound (clipped by the
optional ceiling), it samples the profile's Fourier amplitude at increasing
frequencies and accepts as the tightened cutoff the last frequency at which
the amplitude still exceeds the configured `maxk_threshold` fraction of the
total flux; when no sampled frequency exceeds the threshold, or when the
grid is degenerate (empty) so that no meaningful Fourier sample exists, the
input bound is returned unchanged.  `amp` is the profile's Fourier-amplitude
evaluator (|image transform × k-interpolant|), passed as an explicit oracle
because the exact evaluator is a transcendental function of the pixel data
with no rational closed form; the claims proved below hold for every such
evaluator. -/
def calculateMaxK (p : InterpolatedRealProfile) (amp : ℚ → ℚ) (max_maxk : ℚ) : ℚ :=
  if p.pixels = [] then maxKBound p max_maxk
  else
    match listMax ((candidateFreqs p.stepK (maxKBound p max_maxk)).filter
        (fun k => p.gsparams.maxk_threshold * totalFlux p.pixels < amp k)) with
    | some k => k
    | none => maxKBound p max_maxk

theorem maxKBound_le_maxK (p : InterpolatedRealProfile) (max_maxk : ℚ) :
    maxKBound p max_maxk ≤ p.maxK := by
  unfold maxKBound
  split
  · exact le_refl _
  · exact min_le_left _ _

theorem maxKBound_le_ceiling (p : InterpolatedRealProfile) {max_maxk : ℚ}
    (h : max_maxk ≠ 0) : maxKBound p max_maxk ≤ max_maxk := by
  unfold maxKBound
  rw [if_neg h]
  exact min_le_right _ _

theorem mem_candidateFreqs_le {stepk bound k : ℚ}
    (h : k ∈ candidateFreqs stepk bound) : k ≤ bound := by
  unfold candidateFreqs at h
  split at h
  · simp at h
  · rename_i hs
    have hs' : 0 < stepk := not_le.mp hs
    rcases List.mem_map.mp h with ⟨i, hi, rfl⟩
    rw [List.mem_range] at hi
    have h1 : (i : ℤ) + 1 ≤ ⌊bound / stepk⌋ := by omega
    have h2 : ((i : ℚ) + 1) ≤ bound / stepk := by
      calc ((i : ℚ) + 1) = (((i : ℤ) + 1 : ℤ) : ℚ) := by push_cast; ring
        _ ≤ (⌊bound / stepk⌋ : ℚ) := by exact_mod_cast h1
        _ ≤ bound / stepk := Int.floor_le _
    calc ((i : ℚ) + 1) * stepk ≤ (bound / stepk) * stepk :=
          mul_le_mul_of_nonneg_right h2 (le_of_lt hs')
      _ = bound := div_mul_cancel₀ _ (ne_of_gt hs')

theorem candidateFreqs_mono {stepk b1 b2 k : ℚ} (hb : b1 ≤ b2)
    (h : k ∈ candidateFreqs stepk b1) : k ∈ candidateFreqs stepk b2 := by
  unfold candidateFreqs at h ⊢
  split at h
  · simp at h
  · rename_i hs
    rw [if_neg hs]
    have hs' : 0 < stepk := not_le.mp hs
    rcases List.mem_map.mp h with ⟨i, hi, rfl⟩
    rw [List.mem_range] at hi
    refine List.mem_map.mpr ⟨i, List.mem_range.mpr ?_, rfl⟩
    have hfloor : ⌊b1 / stepk⌋ ≤ ⌊b2 / stepk⌋ :=
      Int.floor_le_floor ((div_le_div_iff_of_pos_right hs').mpr hb)
    omega

/-- A candidate frequency is itself among the candidates bounded by it. -/
theorem self_mem_candidateFreqs {stepk bound k : ℚ}
    (h : k ∈ candidateFreqs stepk bound) : k ∈ candidateFreqs stepk k := by
  unfold candidateFreqs at h ⊢
  split at h
  · simp at h
  · rename_i hs
    rw [if_neg hs]
    have hs' : 0 < stepk := not_le.mp hs
    rcases List.mem_map.mp h with ⟨i, _, rfl⟩
    refine List.mem_map.mpr ⟨i, List.mem_range.mpr ?_, rfl⟩
    have hq : ((i : ℚ) + 1) * stepk / stepk = (i : ℚ) + 1 :=
      mul_div_cancel_right₀ _ (ne_of_gt hs')
    have : ⌊((i : ℚ) + 1) * stepk / stepk⌋ = (i : ℤ) + 1 := by
      rw [hq]
      exact_mod_cast Int.floor_intCast ((i : ℤ) + 1)
    rw [this]
    omega

theorem calculateMaxK_le_bound (p : InterpolatedRealProfile) (amp : ℚ → ℚ)
    (max_maxk : ℚ) : calculateMaxK p amp max_maxk ≤ maxKBound p max_maxk := by
  unfold calculateMaxK
  split
  · exact le_refl _
  · cases hm : listMax ((candidateFreqs p.stepK (maxKBound p max_maxk)).filter
        (fun k => p.gsparams.maxk_threshold * totalFlux p.pixels < amp k)) with
    | some k =>
      have hk := listMax_mem hm
      rw [List.mem_filter] at hk
      exact mem_candidateFreqs_le hk.1
    | none => exact le_refl _

/-- The accepted cutoff is a fixed point of the scan: re-scanning below the
accepted frequency finds the same frequency again. -/
theorem listMax_filter_candidateFreqs_self {stepk bound k : ℚ} {q : ℚ → Bool}
    (hm : listMax ((candidateFreqs stepk bound).filter q) = some k) :
    listMax ((candidateFreqs stepk k).filter q) = some k := by
  have hk := listMax_mem hm
  rw [List.mem_filter] at hk
  apply listMax_eq_of_mem_of_forall_le
  · rw [List.mem_filter]
    exact ⟨self_mem_candidateFreqs hk.1, hk.2⟩
  · intro x hx
    rw [List.mem_filter] at hx
    exact mem_candidateFreqs_le hx.1

/-- **C2.** For every constructed profile, every Fourier-amplitude evaluator
and every ceiling `max_maxk`: the refined `maxK` never exceeds the profile's
current `maxK`; it never exceeds `max_maxk` when `max_maxk` is nonzero; and
refining a second time, on the profile whose `maxK` has been updated to the
refined value, with the same ceiling, returns the refined value again
(idempotence). -/
theorem calculateMaxK_refinement_spec (p : InterpolatedRealProfile)
    (amp : ℚ → ℚ) (max_maxk : ℚ) :
    calculateMaxK p amp max_maxk ≤ p.maxK ∧
    (max_maxk ≠ 0 → calculateMaxK p amp max_maxk ≤ max_maxk) ∧
    calculateMaxK
        ⟨p.pixels, p.stepK, calculateMaxK p amp max_maxk, p.gsparams⟩
        amp max_maxk =
      calculateMaxK p amp max_maxk := by
  obtain ⟨ps, sk, mk, gsp⟩ := p
  refine ⟨le_trans (calculateMaxK_le_bound _ amp max_maxk) (maxKBound_le_maxK _ max_maxk),
    fun h0 => le_trans (calculateMaxK_le_bound _ amp max_maxk)
      (maxKBound_le_ceiling _ h0), ?_⟩
  have hle := calculateMaxK_le_bound ⟨ps, sk, mk, gsp⟩ amp max_maxk
  have hb' : maxKBound
      ⟨ps, sk, calculateMaxK ⟨ps, sk, mk, gsp⟩ amp max_maxk, gsp⟩ max_maxk
      = calculateMaxK ⟨ps, sk, mk, gsp⟩ amp max_maxk := by
    unfold maxKBound at hle ⊢
    by_cases h0 : max_maxk = 0
    · rw [if_pos h0]
    · rw [if_neg h0] at hle ⊢
      exact min_eq_left (le_trans hle (min_le_right _ _))
  by_cases hemp : ps = []
  · conv_lhs => unfold calculateMaxK
    dsimp only
    rw [if_pos hemp]
    exact hb'
  · have hRHS : ∀ v : ℚ, calculateMaxK ⟨ps, sk, v, gsp⟩ amp max_maxk =
        match listMax ((candidateFreqs sk
            (maxKBound ⟨ps, sk, v, gsp⟩ max_maxk)).filter
            (fun k => gsp.maxk_threshold * totalFlux ps < amp k)) with
        | some k => k
        | none => maxKBound ⟨ps, sk, v, gsp⟩ max_maxk := by
      intro v
      unfold calculateMaxK
      dsimp only
      rw [if_neg hemp]
    rw [hRHS, hb']
    cases hm : listMax ((candidateFreqs sk (maxKBound ⟨ps, sk, mk, gsp⟩ max_maxk)).filter
        (fun k => gsp.maxk_threshold * totalFlux ps < amp k)) with
    | some k =>
      have hr : calculateMaxK ⟨ps, sk, mk, gsp⟩ amp max_maxk = k := by
        rw [hRHS, hm]
      rw [hr]
      rw [listMax_filter_candidateFreqs_self hm]
    | none =>
      have hr : calculateMaxK ⟨ps, sk, mk, gsp⟩ amp max_maxk =
          maxKBound ⟨ps, sk, mk, gsp⟩ max_maxk := by
        rw [hRHS, hm]
      rw [hr, hm]

/-- **C9.** For every profile whose grid is empty (no meaningful Fourier
sample can be produced) and every amplitude evaluator, `calculateMaxK` with
the default "no ceiling" argument returns the unmodified input `maxK` rather
than failing (the function is total). -/
theorem calculateMaxK_empty_grid (p : InterpolatedRealProfile) (amp : ℚ → ℚ)
    (h : p.pixels = []) : calculateMaxK p amp 0 = p.maxK := by
  unfold calculateMaxK maxKBound
  rw [if_pos h, if_pos rfl]

/-- Witness for C9: a concrete empty-grid profile with `maxK = 5`. -/
theorem calculateMaxK_empty_grid_witness :
    (([] : List Pixel) = []) ∧
    calculateMaxK ⟨[], 1, 5, ⟨1 / 1000, 1 / 1000⟩⟩ (fun _ => 0) 0 = 5 :=
  ⟨rfl, calculateMaxK_empty_grid ⟨[], 1, 5, ⟨1 / 1000, 1 / 1000⟩⟩ (fun _ => 0) rfl⟩

/-- Witness for C2's ceiling clause at a concrete profile and nonzero
ceiling. -/
theorem calculateMaxK_refinement_spec_witness :
    ((2 : ℚ) ≠ 0) ∧
    calculateMaxK ⟨[⟨0, 0, 1⟩], 1, 5, ⟨1 / 1000, 1 / 1000⟩⟩ (fun _ => 1) 2 ≤ 2 :=
  ⟨by norm_num,
    (calculateMaxK_refinement_spec ⟨[⟨0, 0, 1⟩], 1, 5, ⟨1 / 1000, 1 / 1000⟩⟩
      (fun _ => 1) 2).2.1 (by norm_num)⟩

/-! ### The interpolant family and the profile constructors -/

/-- Modelled from the spec: the closed family of 1D reconstruction kernel
kinds (the `Interpolant` hierarchy; its implementation is not among the
repository sources). -/
inductive Interpolant where
  | nearest
  | linear
  | cubic
  | quintic
  | lanczos (n : ℕ)
  | sinc
  | delta
  deriving Repr, DecidableEq

/-- Modelled from the spec: the real-space half-support of each kernel kind,
in sample units (the kernel vanishes beyond this offset).  The exact sinc
kernel has unbounded support; the truncation radius it reports is a numeric
accuracy detail of the missing implementation, modelled here as 0, as is the
delta kernel's point support. -/
def Interpolant.halfSupport : Interpolant → ℚ
  | nearest => 1 / 2
  | linear => 1
  | cubic => 2
  | quintic => 3
  | lanczos n => n
  | sinc => 0
  | delta => 0

theorem Interpolant.halfSupport_nonneg (i : Interpolant) : 0 ≤ i.halfSupport := by
  cases i <;> simp [Interpolant.halfSupport]

/-- Modelled from the spec: the `stepK` derivation of the real-space profile
constructor in the auto-derive case (`stepk` override `0`).  The physical
rule is `stepK = 2π / D` with `D` the effective image diameter: the extent
of `nonzero_bounds`, extended by the x-interpolant's real-space half-support
on each side, padded according to the folding tolerance.  The spec's design
notes leave the exact padding formula as a tunable heuristic; it is modelled
as an additive pad of `1 / folding_threshold` sample units, which realizes
the spec's requirement that a smaller tolerance yield a larger effective
diameter.  The constant factor `2π` is dropped (stepK is stated in units of
`2π` per sample): every claim about `stepK` is an ordering claim, which a
fixed positive factor cannot affect. -/
def deriveStepK (nonzero_bounds : Bounds) (xInterp : Interpolant)
    (gsp : GSParams) : ℚ :=
  let extent : ℚ := max ((nonzero_bounds.xmax - nonzero_bounds.xmin : ℤ) : ℚ)
      ((nonzero_bounds.ymax - nonzero_bounds.ymin : ℤ) : ℚ)
  1 / (extent + 2 * xInterp.halfSupport + 1 / gsp.folding_threshold)

/-- Modelled from the spec: the `SBInterpolatedImage` constructor (bound at
`src/pysrc/SBInterpolatedImage.cpp:35-41`; the implementation is not among
the repository sources).  It validates that `nonzero_bounds` lies within
`init_bounds` and that the grid is non-empty, then builds the profile,
deriving `stepK` when the override is `0`.  A validation failure produces an
error value carrying only a message — no profile, partial or otherwise, so
no partially constructed state is observable.  The auto-derivation of `maxK`
(from the k-interpolant's `uMax` table) is a numeric table of the missing
implementation that no claim touches; the model stores the override value
as given. -/
def SBInterpolatedImage.init (pixels : List Pixel)
    (init_bounds nonzero_bounds : Bounds) (xInterp kInterp : Interpolant)
    (stepk maxk : ℚ) (gsp : GSParams) : Except String InterpolatedRealProfile :=
  if init_bounds.includes nonzero_bounds then
    if pixels = [] then .error "grid must be non-empty"
    else .ok
      { pixels := pixels
        stepK := if stepk = 0 then deriveStepK nonzero_bounds xInterp gsp else stepk
        maxK := maxk
        gsparams := gsp }
  else .error "nonzero_bounds must lie within init_bounds"

/-- The Fourier-space profile: a complex sample grid, its supplied sampling
interval, the k-space interpolant and the accuracy configuration. -/
structure InterpolatedKProfile where
  kpixels : List KPixel
  stepK : ℚ
  kInterp : Interpolant
  gsparams : GSParams

/-- Modelled from the spec: the `SBInterpolatedKImage` constructor (bound at
`src/pysrc/SBInterpolatedImage.cpp:70-76`; the implementation is not among
the repository sources).  `stepk` is the sampling interval of the supplied
Fourier grid — it is validated to be positive and stored, never derived. -/
def SBInterpolatedKImage.init (kimage : List KPixel) (stepk : ℚ)
    (kInterp : Interpolant) (gsp : GSParams) :
    Except String InterpolatedKProfile :=
  if 0 < stepk then .ok ⟨kimage, stepk, kInterp, gsp⟩
  else .error "stepk must be positive"

/-- **C3.** Constructing a Fourier-space profile with `stepK = 0` fails with
a validation error, and construction succeeds only when `stepK > 0`. -/
theorem sbInterpolatedKImage_init_requires_pos_stepk (kimage : List KPixel)
    (kInterp : Interpolant) (gsp : GSParams) (stepk : ℚ) :
    (∀ p, SBInterpolatedKImage.init kimage 0 kInterp gsp ≠ .ok p) ∧
    (∀ p, SBInterpolatedKImage.init kimage stepk kInterp gsp = .ok p → 0 < stepk) := by
  constructor
  · intro p h
    unfold SBInterpolatedKImage.init at h
    rw [if_neg (lt_irrefl (0 : ℚ))] at h
    cases h
  · intro p h
    unfold SBInterpolatedKImage.init at h
    by_cases hs : 0 < stepk
    · exact hs
    · rw [if_neg hs] at h
      cases h

/-- Witness for C3: construction with `stepk = 1` succeeds, and the theorem
recovers `0 < 1` from it. -/
theorem sbInterpolatedKImage_init_requires_pos_stepk_witness :
    SBInterpolatedKImage.init [] 1 Interpolant.linear ⟨1 / 1000, 1 / 1000⟩ =
      .ok ⟨[], 1, Interpolant.linear, ⟨1 / 1000, 1 / 1000⟩⟩ ∧ (0 : ℚ) < 1 := by
  have hok : SBInterpolatedKImage.init [] 1 Interpolant.linear ⟨1 / 1000, 1 / 1000⟩ =
      .ok ⟨[], 1, Interpolant.linear, ⟨1 / 1000, 1 / 1000⟩⟩ := by
    unfold SBInterpolatedKImage.init
    rw [if_pos (by norm_num : (0 : ℚ) < 1)]
  exact ⟨hok,
    (sbInterpolatedKImage_init_requires_pos_stepk [] Interpolant.linear
      ⟨1 / 1000, 1 / 1000⟩ 1).2 _ hok⟩

/-- **C4.** Constructing a real-space profile whose `nonzero_bounds` is not
contained within `init_bounds` fails with a validation error; the error
value carries only a message, so no partially constructed profile state is
observable (no `ok` value exists). -/
theorem sbInterpolatedImage_init_bad_bounds (pixels : List Pixel)
    (init_bounds nonzero_bounds : Bounds) (xi ki : Interpolant)
    (stepk maxk : ℚ) (gsp : GSParams)
    (h : init_bounds.includes nonzero_bounds = false) :
    SBInterpolatedImage.init pixels init_bounds nonzero_bounds xi ki stepk maxk gsp =
      .error "nonzero_bounds must lie within init_bounds" ∧
    ∀ p, SBInterpolatedImage.init pixels init_bounds nonzero_bounds xi ki stepk maxk gsp ≠
      .ok p := by
  have herr : SBInterpolatedImage.init pixels init_bounds nonzero_bounds xi ki stepk maxk gsp =
      .error "nonzero_bounds must lie within init_bounds" := by
    unfold SBInterpolatedImage.init
    rw [if_neg (by simp [h])]
  exact ⟨herr, fun p hp => by rw [herr] at hp; cases hp⟩

/-- Witness for C4: `nonzero_bounds` sticking out of `init_bounds` on the
right. -/
theorem sbInterpolatedImage_init_bad_bounds_witness :
    (Bounds.includes ⟨0, 1, 0, 1⟩ ⟨0, 2, 0, 1⟩ = false) ∧
    SBInterpolatedImage.init [⟨0, 0, 1⟩] ⟨0, 1, 0, 1⟩ ⟨0, 2, 0, 1⟩
        Interpolant.linear Interpolant.linear 0 0 ⟨1 / 1000, 1 / 1000⟩ =
      .error "nonzero_bounds must lie within init_bounds" :=
  ⟨rfl,
    (sbInterpolatedImage_init_bad_bounds [⟨0, 0, 1⟩] ⟨0, 1, 0, 1⟩ ⟨0, 2, 0, 1⟩
      Interpolant.linear Interpolant.linear 0 0 ⟨1 / 1000, 1 / 1000⟩ rfl).1⟩

/-- When construction succeeds with the `stepk` override `0`, the profile's
`stepK` is the derived one. -/
theorem sbInterpolatedImage_init_stepK_auto {pixels : List Pixel}
    {ib nb : Bounds} {xi ki : Interpolant} {maxk : ℚ} {gsp : GSParams}
    {p : InterpolatedRealProfile}
    (h : SBInterpolatedImage.init pixels ib nb xi ki 0 maxk gsp = .ok p) :
    p.stepK = deriveStepK nb xi gsp := by
  unfold SBInterpolatedImage.init at h
  split at h
  · split at h
    · cases h
    · rw [Except.ok.injEq] at h
      subst h
      dsimp only
      rw [if_pos rfl]
  · cases h

/-- **C7.** For a fixed grid, bounds and interpolants, with `stepK`
auto-derived, the derived `stepK` strictly decreases when the folding-error
tolerance is tightened: profiles constructed under two configurations with
`gsp1.folding_threshold < gsp2.folding_threshold` (all else equal) satisfy
`p1.stepK < p2.stepK`. -/
theorem deriveStepK_strict_mono_in_tolerance (pixels : List Pixel)
    (ib nb : Bounds) (xi ki : Interpolant) (maxk : ℚ) (gsp1 gsp2 : GSParams)
    (p1 p2 : InterpolatedRealProfile)
    (h1 : SBInterpolatedImage.init pixels ib nb xi ki 0 maxk gsp1 = .ok p1)
    (h2 : SBInterpolatedImage.init pixels ib nb xi ki 0 maxk gsp2 = .ok p2)
    (hbx : nb.xmin ≤ nb.xmax) (_hby : nb.ymin ≤ nb.ymax)
    (ht1 : 0 < gsp1.folding_threshold)
    (ht12 : gsp1.folding_threshold < gsp2.folding_threshold) :
    p1.stepK < p2.stepK := by
  rw [sbInterpolatedImage_init_stepK_auto h1, sbInterpolatedImage_init_stepK_auto h2]
  unfold deriveStepK
  have ht2 : 0 < gsp2.folding_threshold := lt_trans ht1 ht12
  have hE : (0 : ℚ) ≤ max ((nb.xmax - nb.xmin : ℤ) : ℚ) ((nb.ymax - nb.ymin : ℤ) : ℚ) := by
    refine le_trans ?_ (le_max_left _ _)
    have : (0 : ℤ) ≤ nb.xmax - nb.xmin := by omega
    exact_mod_cast this
  have hhs : (0 : ℚ) ≤ 2 * xi.halfSupport := by
    have := Interpolant.halfSupport_nonneg xi
    linarith
  have hinv : 1 / gsp2.folding_threshold < 1 / gsp1.folding_threshold :=
    one_div_lt_one_div_of_lt ht1 ht12
  have hinv2 : 0 < 1 / gsp2.folding_threshold := by positivity
  have hd2 : 0 < max ((nb.xmax - nb.xmin : ℤ) : ℚ) ((nb.ymax - nb.ymin : ℤ) : ℚ) +
      2 * xi.halfSupport + 1 / gsp2.folding_threshold := by linarith
  apply one_div_lt_one_div_of_lt hd2
  linarith

/-- Witness for C7: a one-pixel grid, linear interpolants, tolerances
`1/2000 < 1/1000`. -/
theorem deriveStepK_strict_mono_in_tolerance_witness :
    SBInterpolatedImage.init [⟨0, 0, 1⟩] ⟨0, 1, 0, 1⟩ ⟨0, 1, 0, 1⟩
        Interpolant.linear Interpolant.linear 0 0 ⟨1 / 2000, 1 / 1000⟩ =
      .ok ⟨[⟨0, 0, 1⟩], deriveStepK ⟨0, 1, 0, 1⟩ Interpolant.linear ⟨1 / 2000, 1 / 1000⟩,
        0, ⟨1 / 2000, 1 / 1000⟩⟩ ∧
    deriveStepK ⟨0, 1, 0, 1⟩ Interpolant.linear ⟨1 / 2000, 1 / 1000⟩ <
      deriveStepK ⟨0, 1, 0, 1⟩ Interpolant.linear ⟨1 / 1000, 1 / 1000⟩ := by
  have hok1 : SBInterpolatedImage.init [⟨0, 0, 1⟩] ⟨0, 1, 0, 1⟩ ⟨0, 1, 0, 1⟩
      Interpolant.linear Interpolant.linear 0 0 ⟨1 / 2000, 1 / 1000⟩ =
      .ok ⟨[⟨0, 0, 1⟩], deriveStepK ⟨0, 1, 0, 1⟩ Interpolant.linear ⟨1 / 2000, 1 / 1000⟩,
        0, ⟨1 / 2000, 1 / 1000⟩⟩ := by
    unfold SBInterpolatedImage.init
    rw [if_pos (by rfl), if_neg (by simp), if_pos rfl]
  have hok2 : SBInterpolatedImage.init [⟨0, 0, 1⟩] ⟨0, 1, 0, 1⟩ ⟨0, 1, 0, 1⟩
      Interpolant.linear Interpolant.linear 0 0 ⟨1 / 1000, 1 / 1000⟩ =
      .ok ⟨[⟨0, 0, 1⟩], deriveStepK ⟨0, 1, 0, 1⟩ Interpolant.linear ⟨1 / 1000, 1 / 1000⟩,
        0, ⟨1 / 1000, 1 / 1000⟩⟩ := by
    unfold SBInterpolatedImage.init
    rw [if_pos (by rfl), if_neg (by simp), if_pos rfl]
  refine ⟨hok1, ?_⟩
  have := deriveStepK_strict_mono_in_tolerance [⟨0, 0, 1⟩] ⟨0, 1, 0, 1⟩ ⟨0, 1, 0, 1⟩
    Interpolant.linear Interpolant.linear 0 ⟨1 / 2000, 1 / 1000⟩ ⟨1 / 1000, 1 / 1000⟩
    _ _ hok1 hok2 (by norm_num) (by norm_num) (by norm_num) (by norm_num)
  simpa using this

/-! ### C10: precision-uniform instantiation of the flux solver -/

/-- The flux-containment solver as instantiated for a scalar carrier type
`U` (the binding instantiates one shared template at `float` and at
`double`, `src/pysrc/SBInterpolatedImage.cpp:43-45` and `56-57`): the grid's
samples are read through the carrier's value map `val` and the shared
algorithm runs on the resulting exact grid. -/
def CalculateSizeContainingFluxT {U : Type} (val : U → ℚ)
    (image : List (Int × Int × U)) (f : ℚ) : ℚ :=
  CalculateSizeContainingFlux
    (image.map (fun s => ⟨s.1, s.2.1, val s.2.2⟩)) f

/-- **C10.** The two precision instantiations of the flux solver run the
same algorithm: whenever a single-precision grid and a double-precision grid
hold equal sample values at equal coordinates, the computed radius is
identical. -/
theorem calculateSizeContainingFluxT_precision_agree {F D : Type}
    (valF : F → ℚ) (valD : D → ℚ)
    (gF : List (Int × Int × F)) (gD : List (Int × Int × D)) (f : ℚ)
    (h : gF.map (fun s => (⟨s.1, s.2.1, valF s.2.2⟩ : Pixel)) =
         gD.map (fun s => (⟨s.1, s.2.1, valD s.2.2⟩ : Pixel))) :
    CalculateSizeContainingFluxT valF gF f = CalculateSizeContainingFluxT valD gD f := by
  unfold CalculateSizeContainingFluxT
  rw [h]

/-- Witness for C10: an integer-sample grid and a natural-sample grid whose
values agree. -/
theorem calculateSizeContainingFluxT_precision_agree_witness :
    ([((0 : Int), (0 : Int), (1 : Int))].map
        (fun s => (⟨s.1, s.2.1, ((s.2.2 : Int) : ℚ)⟩ : Pixel)) =
      [((0 : Int), (0 : Int), (1 : ℕ))].map
        (fun s => (⟨s.1, s.2.1, ((s.2.2 : ℕ) : ℚ)⟩ : Pixel))) ∧
    CalculateSizeContainingFluxT (fun v : Int => (v : ℚ)) [(0, 0, 1)] 1 =
      CalculateSizeContainingFluxT (fun v : ℕ => (v : ℚ)) [(0, 0, 1)] 1 := by
  have h : [((0 : Int), (0 : Int), (1 : Int))].map
        (fun s => (⟨s.1, s.2.1, ((s.2.2 : Int) : ℚ)⟩ : Pixel)) =
      [((0 : Int), (0 : Int), (1 : ℕ))].map
        (fun s => (⟨s.1, s.2.1, ((s.2.2 : ℕ) : ℚ)⟩ : Pixel)) := by
    simp
  exact ⟨h, calculateSizeContainingFluxT_precision_agree _ _ _ _ 1 h⟩

/-! ### C8 side development: partition of unity for the polynomial kernels

The claim on the interpolant family quantifies over all seven kernel kinds;
the sinc-based kinds (exact sinc, Lanczos, delta) and every kind's Fourier
transform `kValue` are transcendental and are evaluated in floating point,
so they have no exact shallow embedding.  The rational-arithmetic part of
the claim — `xValue` forming a partition of unity on a uniform grid — is
settled here for the four piecewise-polynomial kinds.  Any grid offset can
be reduced modulo 1 to `t ∈ [0, 1)`, so the theorems below quantify over
that fundamental interval; for each kernel the sum ranges over the integer
sample offsets within its support. -/

/-- Modelled from the spec: real-space kernel of the nearest-neighbour
interpolant — the box kernel, with the symmetric value `1/2` on the boundary
`|x| = 1/2` (the convention that preserves the partition of unity). -/
def xvalNearest (x : ℚ) : ℚ :=
  if |x| < 1 / 2 then 1 else if |x| = 1 / 2 then 1 / 2 else 0

/-- Modelled from the spec: real-space kernel of the linear interpolant —
the tent kernel. -/
def xvalLinear (x : ℚ) : ℚ :=
  if |x| < 1 then 1 - |x| else 0

/-- Modelled from the spec: real-space kernel of the cubic interpolant —
the standard interpolating (Catmull-Rom) cubic with half-support 2. -/
def xvalCubic (x : ℚ) : ℚ :=
  if |x| < 1 then 1 + |x| ^ 2 * (3 * |x| / 2 - 5 / 2)
  else if |x| < 2 then -(|x| - 1) * (2 - |x|) ^ 2 / 2
  else 0

/-- Modelled from the spec: real-space kernel of the quintic interpolant —
the piecewise-quintic kernel with half-support 3 of Bernstein and Gruen,
uniquely determined by interpolation at the integers, continuity through the
second derivative, partition of unity, and exact reproduction of linear
functions, given the inner piece `1 + x³(−95/12 + x(23/2 − 55x/12))`. -/
def xvalQuintic (x : ℚ) : ℚ :=
  if |x| ≤ 1 then
    1 + |x| ^ 3 * (-95 / 12 + |x| * (23 / 2 + |x| * (-55 / 12)))
  else if |x| ≤ 2 then
    (|x| - 1) * (2 - |x|) * (33 / 4 + |x| * (-39 / 2 + |x| * (27 / 2 + |x| * (-35 / 12))))
  else if |x| ≤ 3 then
    (|x| - 2) * (3 - |x|) ^ 2 * (-19 / 4 + |x| * (49 / 12 + |x| * (-5 / 6)))
  else 0

/-- Partition of unity for the nearest-neighbour kernel: at every grid
offset `t ∈ [0, 1)` the weights of the two neighbouring samples sum to 1. -/
theorem xvalNearest_partition (t : ℚ) (h0 : 0 ≤ t) (h1 : t < 1) :
    xvalNearest t + xvalNearest (t - 1) = 1 := by
  unfold xvalNearest
  rw [abs_of_nonneg h0, abs_of_nonpos (by linarith : t - 1 ≤ 0)]
  rcases lt_trichotomy t (1 / 2) with hc | hc | hc
  · rw [if_pos hc, if_neg (by linarith : ¬ -(t - 1) < 1 / 2),
        if_neg (by intro h; linarith : ¬ -(t - 1) = 1 / 2)]
    norm_num
  · rw [if_neg (by linarith : ¬ t < 1 / 2), if_pos hc,
        if_neg (by linarith : ¬ -(t - 1) < 1 / 2),
        if_pos (by rw [hc]; norm_num : -(t - 1) = 1 / 2)]
    norm_num
  · rw [if_neg (by linarith : ¬ t < 1 / 2), if_neg (by intro h; linarith : ¬ t = 1 / 2),
        if_pos (by linarith : -(t - 1) < 1 / 2)]
    norm_num

/-- Partition of unity for the linear (tent) kernel. -/
theorem xvalLinear_partition (t : ℚ) (h0 : 0 ≤ t) (h1 : t < 1) :
    xvalLinear t + xvalLinear (t - 1) = 1 := by
  unfold xvalLinear
  rw [abs_of_nonneg h0, abs_of_nonpos (by linarith : t - 1 ≤ 0)]
  rcases eq_or_lt_of_le h0 with rfl | hpos
  · norm_num
  · rw [if_pos (by linarith : t < 1), if_pos (by linarith : -(t - 1) < 1)]
    ring

/-- Partition of unity for the cubic kernel: the four in-support sample
weights sum to 1 at every grid offset. -/
theorem xvalCubic_partition (t : ℚ) (h0 : 0 ≤ t) (h1 : t < 1) :
    xvalCubic (t + 1) + xvalCubic t + xvalCubic (t - 1) + xvalCubic (t - 2) = 1 := by
  rcases eq_or_lt_of_le h0 with rfl | hpos
  · norm_num [xvalCubic]
  · unfold xvalCubic
    rw [abs_of_nonneg (by linarith : (0 : ℚ) ≤ t + 1), abs_of_nonneg h0,
        abs_of_nonpos (by linarith : t - 1 ≤ 0), abs_of_nonpos (by linarith : t - 2 ≤ 0)]
    rw [if_neg (by linarith : ¬ t + 1 < 1), if_pos (by linarith : t + 1 < 2),
        if_pos h1,
        if_pos (by linarith : -(t - 1) < 1),
        if_neg (by linarith : ¬ -(t - 2) < 1), if_pos (by linarith : -(t - 2) < 2)]
    ring

/-- Partition of unity for the quintic kernel: the six in-support sample
weights sum to 1 at every grid offset. -/
theorem xvalQuintic_partition (t : ℚ) (h0 : 0 ≤ t) (h1 : t < 1) :
    xvalQuintic (t + 2) + xvalQuintic (t + 1) + xvalQuintic t +
      xvalQuintic (t - 1) + xvalQuintic (t - 2) + xvalQuintic (t - 3) = 1 := by
  rcases eq_or_lt_of_le h0 with rfl | hpos
  · norm_num [xvalQuintic]
  · unfold xvalQuintic
    rw [abs_of_nonneg (by linarith : (0 : ℚ) ≤ t + 2),
        abs_of_nonneg (by linarith : (0 : ℚ) ≤ t + 1), abs_of_nonneg h0,
        abs_of_nonpos (by linarith : t - 1 ≤ 0), abs_of_nonpos (by linarith : t - 2 ≤ 0),
        abs_of_nonpos (by linarith : t - 3 ≤ 0)]
    rw [if_neg (by linarith : ¬ t + 2 ≤ 1), if_neg (by linarith : ¬ t + 2 ≤ 2),
        if_pos (by linarith : t + 2 ≤ 3),
        if_neg (by linarith : ¬ t + 1 ≤ 1), if_pos (by linarith : t + 1 ≤ 2),
        if_pos (by linarith : t ≤ 1),
        if_pos (by linarith : -(t - 1) ≤ 1),
        if_neg (by linarith : ¬ -(t - 2) ≤ 1), if_pos (by linarith : -(t - 2) ≤ 2),
        if_neg (by linarith : ¬ -(t - 3) ≤ 1), if_neg (by linarith : ¬ -(t - 3) ≤ 2),
        if_pos (by linarith : -(t - 3) ≤ 3)]
    ring

end GalSim
